import Mathlib

/-!
# Verification of the intra-block diff engine (`src/edits.rs`)

This file embeds the Rust module `src/edits.rs` (tokenizer, annotator and
homology detector) into Lean and proves / refutes the frozen claims about it.

Modelling conventions:

* A line (`&str`) is a `List Char`.  The Rust code only ever slices lines at
  offsets obtained by summing the lengths of tokens, which are themselves
  slices of the line, so slicing by character counts is faithful to the byte
  offset arithmetic of the source (offsets never fall inside a character).
* `.graphemes(true).count()` from the external `unicode_segmentation` crate is
  modelled as a parameter `gcount : List Char → Nat`; nothing in the claims
  depends on the concrete grapheme clustering, and concrete instances use
  `List.length` (exact for ASCII inputs).
* `str::trim` is modelled with `Char.isWhitespace`.
* The `f64` distance is modelled exactly: the only values that occur are
  `numer / denom` for naturals with `numer ≤ denom`; `DistVal` records the
  IEEE result of `(numer as f64) / (denom as f64)`: `nan` for `0/0`, `inf`
  for `n/0` with `n > 0` (unreachable in the program), and the exact rational
  otherwise.  `NaN <= t` and `inf <= t` are `false`.  All distances appearing
  in concrete claims are exactly representable, so rational comparison agrees
  with `f64` comparison.
* The crate-internal `align` module is not part of the provided sources; the
  alignment engine is a parameter `alignFn` producing a run-length encoded
  edit script, constrained only by the spec's full-consumption contract where
  a claim needs it.  `alignSpec` below is a concrete contract-satisfying
  engine used for witnesses and counterexamples.
* Rust's `Vec` indexing panics out of range; the Lean model truncates via
  `List.take`/`List.drop`.  Every theorem below operates within the
  full-consumption contract, where the two coincide.
-/

/-- Edit-script operations, from `align::Operation`. -/
inductive Op : Type
  | Deletion
  | NoOp
  | Substitution
  | Insertion
  deriving DecidableEq, Repr

/-- The separator character class of `tokenize`, translated from the regex
character class `[ ,;.:()\[\]<>]+` in `src/edits.rs` (space, comma, semicolon,
period, colon, parentheses, square brackets, angle brackets). -/
def isSep (c : Char) : Bool :=
  [' ', ',', ';', '.', ':', '(', ')', '[', ']', '<', '>'].contains c

/-- The separator set as the spec's words state it (C4): "space, comma,
semicolon, colon, `(` `)` `[` `]` `<` `>`" — note: no period. -/
def claimedSepSet (c : Char) : Bool :=
  [' ', ',', ';', ':', '(', ')', '[', ']', '<', '>'].contains c

/-- The claimed separator set amended with the period, which the regex in the
source also treats as a separator. -/
def amendedSepSet (c : Char) : Bool :=
  [' ', ',', ';', ':', '(', ')', '[', ']', '<', '>', '.'].contains c

/-- The scanner of `tokenize`, parametrized by the separator class.
Translated from `src/edits.rs`: for each maximal separator run (`find_iter`
match) push the preceding content run (even when empty) and then the
separator run; finally push the trailing content run when non-empty.  The
`fuel` argument (always at least the length of the remaining input, as
supplied by `tokenizeP`) only makes the recursion structural so that the
function evaluates by kernel reduction; it never runs out. -/
def tokenizeGo (p : Char → Bool) : Nat → List Char → List (List Char)
  | _, [] => []
  | 0, _ :: _ => []
  | fuel + 1, c :: cs =>
    match (c :: cs).dropWhile (fun x => !p x) with
    | [] => [(c :: cs).takeWhile (fun x => !p x)]
    | r :: rs =>
      ((c :: cs).takeWhile (fun x => !p x))
        :: ((r :: rs).takeWhile p)
        :: tokenizeGo p fuel ((r :: rs).dropWhile p)

/-- `tokenize` parametrized by the separator class. -/
def tokenizeP (p : Char → Bool) (l : List Char) : List (List Char) :=
  tokenizeGo p l.length l

/-- `tokenize` from `src/edits.rs` (with the source's separator class). -/
def tokenize (l : List Char) : List (List Char) :=
  tokenizeP isSep l

/-- `str::trim`: remove leading and trailing whitespace. -/
def trim (s : List Char) : List Char :=
  ((s.dropWhile Char.isWhitespace).reverse.dropWhile Char.isWhitespace).reverse

/-- The result of the IEEE `f64` division `(numer as f64) / (denom as f64)`
for naturals: `nan` for `0/0`, `inf` for positive-over-zero, and the exact
rational otherwise (exactness is immaterial for the claims; see header). -/
inductive DistVal : Type
  | nan
  | inf
  | val (q : ℚ)
  deriving DecidableEq, Repr

/-- `(d_numer as f64) / (d_denom as f64)` from the last line of `annotate`
(`mkRat numer denom` is the exact rational `numer / denom`). -/
def mkDist (numer denom : Nat) : DistVal :=
  if denom = 0 then (if numer = 0 then DistVal.nan else DistVal.inf)
  else DistVal.val (mkRat numer denom)

/-- The `f64` comparison `distance <= max_line_distance`: `false` whenever the
left side is NaN (or `inf`, with a finite threshold). -/
def dleQ : DistVal → ℚ → Bool
  | DistVal.nan, _ => false
  | DistVal.inf, _ => false
  | DistVal.val q, t => decide (q ≤ t)

/-- `section_length` in `get_section`: total length of the `n` substrings
starting at token offset `off` (Rust indexing panics past the end; the model
truncates, which agrees within the full-consumption contract). -/
def sectionLen (toks : List (List Char)) (off n : Nat) : Nat :=
  (((toks.drop off).take n).map List.length).sum

/-- `get_section`: the slice of the original line at the current line offset
whose length is the total length of the `n` consumed tokens. -/
def getSection (toks : List (List Char)) (off n lineOff : Nat) (line : List Char) :
    List Char :=
  (line.drop lineOff).take (sectionLen toks off n)

/-- `distance_contribution`: trimmed grapheme count of a section. -/
def distContrib (gcount : List Char → Nat) (s : List Char) : Nat :=
  gcount (trim s)

/-- The mutable state of `annotate`'s loop: token offsets `x_offset`,
`y_offset`, raw line offsets, distance numerator and denominator, and the two
annotated lines being built. -/
structure AnnState (A : Type) : Type where
  xOff : Nat
  yOff : Nat
  mOff : Nat
  pOff : Nat
  numer : Nat
  denom : Nat
  am : List (A × List Char)
  ap : List (A × List Char)

/-- One iteration of `annotate`'s `for (op, n)` loop. -/
def annStep {A : Type} (gcount : List Char → Nat) (noopDel del noopIns ins : A)
    (xs ys : List (List Char)) (minusLine plusLine : List Char)
    (opn : Op × Nat) (s : AnnState A) : AnnState A :=
  match opn with
  | (Op.Deletion, n) =>
    let sec := getSection xs s.xOff n s.mOff minusLine
    let c := distContrib gcount sec
    { s with xOff := s.xOff + n, mOff := s.mOff + sectionLen xs s.xOff n,
             denom := s.denom + c, numer := s.numer + c,
             am := s.am ++ [(del, sec)] }
  | (Op.NoOp, n) =>
    let msec := getSection xs s.xOff n s.mOff minusLine
    let psec := getSection ys s.yOff n s.pOff plusLine
    let c := distContrib gcount msec
    { s with xOff := s.xOff + n, mOff := s.mOff + sectionLen xs s.xOff n,
             yOff := s.yOff + n, pOff := s.pOff + sectionLen ys s.yOff n,
             denom := s.denom + c,
             am := s.am ++ [(noopDel, msec)], ap := s.ap ++ [(noopIns, psec)] }
  | (Op.Substitution, n) =>
    let msec := getSection xs s.xOff n s.mOff minusLine
    let psec := getSection ys s.yOff n s.pOff plusLine
    let c := distContrib gcount msec
    { s with xOff := s.xOff + n, mOff := s.mOff + sectionLen xs s.xOff n,
             yOff := s.yOff + n, pOff := s.pOff + sectionLen ys s.yOff n,
             denom := s.denom + c, numer := s.numer + c,
             am := s.am ++ [(del, msec)], ap := s.ap ++ [(ins, psec)] }
  | (Op.Insertion, n) =>
    let psec := getSection ys s.yOff n s.pOff plusLine
    let c := distContrib gcount psec
    { s with yOff := s.yOff + n, pOff := s.pOff + sectionLen ys s.yOff n,
             denom := s.denom + c, numer := s.numer + c,
             ap := s.ap ++ [(ins, psec)] }

/-- `annotate`'s loop over the coalesced operations. -/
def annotateGo {A : Type} (gcount : List Char → Nat) (noopDel del noopIns ins : A)
    (xs ys : List (List Char)) (minusLine plusLine : List Char) :
    List (Op × Nat) → AnnState A → AnnState A
  | [], s => s
  | opn :: rest, s =>
    annotateGo gcount noopDel del noopIns ins xs ys minusLine plusLine rest
      (annStep gcount noopDel del noopIns ins xs ys minusLine plusLine opn s)

/-- The initial state of `annotate`'s loop. -/
def annInit {A : Type} : AnnState A :=
  { xOff := 0, yOff := 0, mOff := 0, pOff := 0, numer := 0, denom := 0,
    am := [], ap := [] }

/-- `annotate` from `src/edits.rs`.  The alignment argument is passed as its
components: the two token sequences `x`/`y` and the coalesced operations. -/
def annotate {A : Type} (gcount : List Char → Nat) (noopDel del noopIns ins : A)
    (xs ys : List (List Char)) (ops : List (Op × Nat))
    (minusLine plusLine : List Char) :
    List (A × List Char) × List (A × List Char) × DistVal :=
  let s := annotateGo gcount noopDel del noopIns ins xs ys minusLine plusLine
    ops annInit
  (s.am, s.ap, mkDist s.numer s.denom)

/-- Tokens consumed from the minus-side sequence by one operation:
`Deletion`, `NoOp` and `Substitution` consume `n`, `Insertion` none. -/
def consumeX : Op × Nat → Nat
  | (Op.Deletion, n) => n
  | (Op.NoOp, n) => n
  | (Op.Substitution, n) => n
  | (Op.Insertion, _) => 0

/-- Tokens consumed from the plus-side sequence by one operation. -/
def consumeY : Op × Nat → Nat
  | (Op.Deletion, _) => 0
  | (Op.NoOp, n) => n
  | (Op.Substitution, n) => n
  | (Op.Insertion, n) => n

/-- Total minus-side tokens consumed by a script. -/
def totalX (ops : List (Op × Nat)) : Nat := (ops.map consumeX).sum

/-- Total plus-side tokens consumed by a script. -/
def totalY (ops : List (Op × Nat)) : Nat := (ops.map consumeY).sum

/-- The spec's full-consumption invariant for an edit script over two token
sequences: the operations, applied in order, consume every token of both
sequences exactly once. -/
def fullConsume (ops : List (Op × Nat)) (xs ys : List (List Char)) : Prop :=
  totalX ops = xs.length ∧ totalY ops = ys.length

/-- The distance accumulation as the spec §4.2 words it, computed directly
over the token sequences: walk the script keeping token cursors; a
`Deletion`/`Substitution`/`Insertion` run adds the trimmed grapheme count of
its contributing substring (the concatenation of the tokens it consumes) to
both numerator and denominator; a `NoOp` run adds the minus-side substring's
count to the denominator only.  Returns (numerator, denominator). -/
def distSpec (gcount : List Char → Nat) (xs ys : List (List Char)) :
    List (Op × Nat) → Nat → Nat → Nat × Nat
  | [], _, _ => (0, 0)
  | (Op.Deletion, n) :: rest, xo, yo =>
    let c := distContrib gcount ((xs.drop xo).take n).flatten
    let r := distSpec gcount xs ys rest (xo + n) yo
    (c + r.1, c + r.2)
  | (Op.NoOp, n) :: rest, xo, yo =>
    let c := distContrib gcount ((xs.drop xo).take n).flatten
    let r := distSpec gcount xs ys rest (xo + n) (yo + n)
    (r.1, c + r.2)
  | (Op.Substitution, n) :: rest, xo, yo =>
    let c := distContrib gcount ((xs.drop xo).take n).flatten
    let r := distSpec gcount xs ys rest (xo + n) (yo + n)
    (c + r.1, c + r.2)
  | (Op.Insertion, n) :: rest, xo, yo =>
    let c := distContrib gcount ((ys.drop yo).take n).flatten
    let r := distSpec gcount xs ys rest xo (yo + n)
    (c + r.1, c + r.2)

/-- Modelled from the spec: the alignment engine (the crate's `align` module,
which is not among the provided sources) is specified in §6 only as producing
a finite, run-length-coalesced edit script satisfying the full-consumption
invariant, any such engine being substitutable.  This concrete engine pairs
the two token sequences positionally (`NoOp` for equal tokens, `Substitution`
otherwise) and consumes the leftover of the longer sequence. -/
def alignRaw : List (List Char) → List (List Char) → List Op
  | [], ys => ys.map (fun _ => Op.Insertion)
  | x :: xs, [] => (x :: xs).map (fun _ => Op.Deletion)
  | x :: xs, y :: ys =>
    (if x = y then Op.NoOp else Op.Substitution) :: alignRaw xs ys

/-- Run-length encoding of an operation sequence (the coalescing the spec
describes for edit scripts). -/
def rle : List Op → List (Op × Nat)
  | [] => []
  | o :: os =>
    match rle os with
    | [] => [(o, 1)]
    | (o2, n) :: rest => if o = o2 then (o2, n + 1) :: rest else (o, 1) :: (o2, n) :: rest

/-- Modelled from the spec: a concrete contract-satisfying alignment engine
(see `alignRaw`). -/
def alignSpec (xs ys : List (List Char)) : List (Op × Nat) :=
  rle (alignRaw xs ys)

/-- An annotated line: ordered (label, substring) pairs. -/
abbrev AL (A : Type) : Type := List (A × List Char)

/-- Concatenation of an annotated line's substrings. -/
def joinAL {A : Type} (al : AL A) : List Char :=
  (al.map Prod.snd).flatten

/-- The inner candidate scan of `infer_edits`: for one minus line, walk the
not-yet-consumed plus lines in order; accept the first whose distance passes
the threshold.  Returns the rejected prefix (`considered` lines), the two
annotated lines of the match, and the remaining plus lines, or `none` when no
candidate passes. -/
def scanPlus {A : Type} (gcount : List Char → Nat) (noopDel del noopIns ins : A)
    (alignFn : List (List Char) → List (List Char) → List (Op × Nat))
    (maxd : ℚ) (minusLine : List Char) :
    List (List Char) → Option (List (List Char) × AL A × AL A × List (List Char))
  | [] => none
  | p :: ps =>
    let xs := tokenize minusLine
    let ys := tokenize p
    let r := annotate gcount noopDel del noopIns ins xs ys (alignFn xs ys) minusLine p
    if dleQ r.2.2 maxd then some ([], r.1, r.2.1, ps)
    else
      match scanPlus gcount noopDel del noopIns ins alignFn maxd minusLine ps with
      | some (rej, am, ap, rest) => some (p :: rej, am, ap, rest)
      | none => none

/-- `infer_edits` from `src/edits.rs`, with the `emitted`/`considered` index
bookkeeping of the source expressed as list splitting: for each minus line in
order, scan the unconsumed plus lines for the first homolog; on acceptance
emit the rejected plus lines unpaired then the matched pair; otherwise emit
the minus line unpaired; finally emit the remaining plus lines unpaired. -/
def infer_edits {A : Type} (gcount : List Char → Nat)
    (noop_deletion deletion noop_insertion insertion : A)
    (alignFn : List (List Char) → List (List Char) → List (Op × Nat))
    (max_line_distance : ℚ) :
    List (List Char) → List (List Char) → List (AL A) × List (AL A)
  | [], plus => ([], plus.map (fun p => [(noop_insertion, p)]))
  | m :: ms, plus =>
    match scanPlus gcount noop_deletion deletion noop_insertion insertion alignFn
        max_line_distance m plus with
    | some (rej, am, ap, rest) =>
      let r := infer_edits gcount noop_deletion deletion noop_insertion insertion
        alignFn max_line_distance ms rest
      (am :: r.1, (rej.map (fun p => [(noop_insertion, p)])) ++ ap :: r.2)
    | none =>
      let r := infer_edits gcount noop_deletion deletion noop_insertion insertion
        alignFn max_line_distance ms plus
      ([(noop_deletion, m)] :: r.1, r.2)

/-- The pairing decisions of `infer_edits`, one `Bool` per minus line in
order: `true` exactly when the `distance <= max_line_distance` branch is
taken for that minus line (it is emitted as half of a homologous pair).
Same recursion as `infer_edits`. -/
def inferMatches {A : Type} (gcount : List Char → Nat)
    (noopDel del noopIns ins : A)
    (alignFn : List (List Char) → List (List Char) → List (Op × Nat))
    (maxd : ℚ) : List (List Char) → List (List Char) → List Bool
  | [], _ => []
  | m :: ms, plus =>
    match scanPlus gcount noopDel del noopIns ins alignFn maxd m plus with
    | some (_, _, _, rest) =>
      true :: inferMatches gcount noopDel del noopIns ins alignFn maxd ms rest
    | none =>
      false :: inferMatches gcount noopDel del noopIns ins alignFn maxd ms plus

/-- Whether every operation of a script is `NoOp`. -/
def allNoOp (ops : List (Op × Nat)) : Bool :=
  ops.all (fun o => o.1 = Op.NoOp)

/-- Structural well-formedness of a token list as an alternation of content
runs and separator runs (`expectSep` says which run comes next): separator
runs are non-empty and consist of separator characters only, content runs
contain no separator characters, and a content run following a separator run
is non-empty.  Together with `tokenizeP_join` this says separator tokens are
maximal separator runs. -/
def altRuns : Bool → List (List Char) → Bool
  | _, [] => true
  | true, t :: rest =>
    !t.isEmpty && t.all isSep &&
      (match rest with | [] => true | u :: _ => !u.isEmpty) &&
      altRuns false rest
  | false, t :: rest => t.all (fun c => !isSep c) && altRuns true rest

/-- Raw line offset after consuming `k` tokens: the sum of their lengths. -/
def offAt (xs : List (List Char)) (k : Nat) : Nat :=
  ((xs.take k).map List.length).sum

/-- After dropping a (non-empty) content run and then the following separator
run, strictly less input remains: the scanner's progress fact. -/
theorem dropWhile_twice_lt {p : Char → Bool} (c : Char) (cs : List Char)
    (r : Char) (rs : List Char)
    (h : (c :: cs).dropWhile (fun x => !p x) = r :: rs) :
    ((r :: rs).dropWhile p).length < (c :: cs).length := by
  have hpr : p r = true := by
    have := List.head?_dropWhile_not (fun x => !p x) (c :: cs)
    rw [h] at this
    simpa using this
  have h1 : (r :: rs).dropWhile p = rs.dropWhile p := by
    simp [List.dropWhile_cons, hpr]
  have h2 : (rs.dropWhile p).length ≤ rs.length :=
    (List.dropWhile_sublist p).length_le
  have h3 : (r :: rs).length ≤ (c :: cs).length := by
    have hsub : List.Sublist ((c :: cs).dropWhile (fun x => !p x)) (c :: cs) :=
      List.dropWhile_sublist (fun x => !p x)
    rw [h] at hsub
    exact hsub.length_le
  rw [h1]
  simp only [List.length_cons] at h3 ⊢
  omega

/-- Partition invariant for the scanner: the tokens concatenate back to the
input, for any sufficient fuel. -/
theorem tokenizeGo_join (p : Char → Bool) :
    ∀ (fuel : Nat) (l : List Char), l.length ≤ fuel →
      (tokenizeGo p fuel l).flatten = l := by
  intro fuel
  induction fuel with
  | zero =>
    intro l hl
    cases l with
    | nil => rfl
    | cons c cs => simp at hl
  | succ f ih =>
    intro l hl
    cases l with
    | nil => rfl
    | cons c cs =>
      simp only [tokenizeGo]
      split
      case h_1 heq =>
        have := List.takeWhile_append_dropWhile (fun x => !p x) (c :: cs)
        rw [heq, List.append_nil] at this
        simpa using this
      case h_2 r rs heq =>
        have hrec := ih ((r :: rs).dropWhile p) (by
          have hlt := dropWhile_twice_lt c cs r rs heq
          simp only [List.length_cons] at hl hlt
          omega)
        simp only [List.flatten_cons, hrec]
        have h2 : (r :: rs).takeWhile p ++ (r :: rs).dropWhile p = r :: rs :=
          List.takeWhile_append_dropWhile p (r :: rs)
        have h3 : (c :: cs).takeWhile (fun x => !p x)
            ++ (c :: cs).dropWhile (fun x => !p x) = c :: cs :=
          List.takeWhile_append_dropWhile (fun x => !p x) (c :: cs)
        rw [heq] at h3
        rw [h2]
        exact h3

/-- Partition invariant: the tokens concatenate back to the line. -/
theorem tokenizeP_join (p : Char → Bool) (l : List Char) :
    (tokenizeP p l).flatten = l :=
  tokenizeGo_join p l.length l (Nat.le_refl _)

theorem offAt_add (xs : List (List Char)) (k n : Nat) :
    offAt xs (k + n) = offAt xs k + sectionLen xs k n := by
  unfold offAt sectionLen
  rw [List.take_add, List.map_append, List.sum_append]

theorem drop_offAt (xs : List (List Char)) (k : Nat) :
    xs.flatten.drop (offAt xs k) = (xs.drop k).flatten := by
  have h : xs.flatten = (xs.take k).flatten ++ (xs.drop k).flatten := by
    rw [← List.flatten_append, List.take_append_drop]
  rw [h]
  have h2 : offAt xs k = (xs.take k).flatten.length := by
    rw [List.length_flatten]
    rfl
  rw [h2, List.drop_left]

/-- Within the cursor invariant, `get_section`'s slice of the original line is
exactly the concatenation of the `n` consumed tokens. -/
theorem getSection_eq (xs : List (List Char)) (k n : Nat) :
    getSection xs k n (offAt xs k) xs.flatten = ((xs.drop k).take n).flatten := by
  unfold getSection
  rw [drop_offAt]
  have h1 : (xs.drop k).flatten
      = ((xs.drop k).take n).flatten ++ ((xs.drop k).drop n).flatten := by
    rw [← List.flatten_append, List.take_append_drop]
  have h2 : sectionLen xs k n = ((xs.drop k).take n).flatten.length := by
    rw [List.length_flatten]
    rfl
  rw [h1, h2, List.take_left]

theorem joinAL_snoc {A : Type} (al : AL A) (x : A × List Char) :
    joinAL (al ++ [x]) = joinAL al ++ x.2 := by
  simp [joinAL]

theorem annotateGo_xOff {A : Type} (gcount : List Char → Nat) (nd d ni i : A)
    (xs ys : List (List Char)) (ml pl : List Char) :
    ∀ (ops : List (Op × Nat)) (s : AnnState A),
      (annotateGo gcount nd d ni i xs ys ml pl ops s).xOff = s.xOff + totalX ops := by
  intro ops
  induction ops with
  | nil => intro s; simp [annotateGo, totalX]
  | cons opn rest ih =>
    intro s
    obtain ⟨op, n⟩ := opn
    rw [annotateGo, ih]
    cases op <;> simp [annStep, totalX, consumeX] <;> omega

theorem annotateGo_yOff {A : Type} (gcount : List Char → Nat) (nd d ni i : A)
    (xs ys : List (List Char)) (ml pl : List Char) :
    ∀ (ops : List (Op × Nat)) (s : AnnState A),
      (annotateGo gcount nd d ni i xs ys ml pl ops s).yOff = s.yOff + totalY ops := by
  intro ops
  induction ops with
  | nil => intro s; simp [annotateGo, totalY]
  | cons opn rest ih =>
    intro s
    obtain ⟨op, n⟩ := opn
    rw [annotateGo, ih]
    cases op <;> simp [annStep, totalY, consumeY] <;> omega

/-- Minus-side loop invariant of `annotate`: the raw cursor sits at the total
length of the consumed tokens, and the annotated minus line built so far
concatenates to the consumed prefix of the minus line. -/
theorem annotateGo_minus {A : Type} (gcount : List Char → Nat) (nd d ni i : A)
    (xs ys : List (List Char)) (pl : List Char) :
    ∀ (ops : List (Op × Nat)) (s : AnnState A),
      s.mOff = offAt xs s.xOff →
      joinAL s.am = xs.flatten.take s.mOff →
      (annotateGo gcount nd d ni i xs ys xs.flatten pl ops s).mOff
          = offAt xs (annotateGo gcount nd d ni i xs ys xs.flatten pl ops s).xOff
      ∧ joinAL (annotateGo gcount nd d ni i xs ys xs.flatten pl ops s).am
          = xs.flatten.take
              (annotateGo gcount nd d ni i xs ys xs.flatten pl ops s).mOff := by
  intro ops
  induction ops with
  | nil => intro s h1 h2; exact ⟨h1, h2⟩
  | cons opn rest ih =>
    intro s h1 h2
    obtain ⟨op, n⟩ := opn
    rw [annotateGo]
    cases op
    case Deletion =>
      apply ih
      · simp only [annStep]
        rw [h1, offAt_add]
      · simp only [annStep]
        rw [joinAL_snoc, h2]
        simp only [getSection]
        exact (List.take_add _ _ _).symm
    case NoOp =>
      apply ih
      · simp only [annStep]
        rw [h1, offAt_add]
      · simp only [annStep]
        rw [joinAL_snoc, h2]
        simp only [getSection]
        exact (List.take_add _ _ _).symm
    case Substitution =>
      apply ih
      · simp only [annStep]
        rw [h1, offAt_add]
      · simp only [annStep]
        rw [joinAL_snoc, h2]
        simp only [getSection]
        exact (List.take_add _ _ _).symm
    case Insertion =>
      apply ih
      · simp only [annStep]
        exact h1
      · simp only [annStep]
        exact h2

/-- Plus-side loop invariant of `annotate`, symmetric to `annotateGo_minus`. -/
theorem annotateGo_plus {A : Type} (gcount : List Char → Nat) (nd d ni i : A)
    (xs ys : List (List Char)) (ml : List Char) :
    ∀ (ops : List (Op × Nat)) (s : AnnState A),
      s.pOff = offAt ys s.yOff →
      joinAL s.ap = ys.flatten.take s.pOff →
      (annotateGo gcount nd d ni i xs ys ml ys.flatten ops s).pOff
          = offAt ys (annotateGo gcount nd d ni i xs ys ml ys.flatten ops s).yOff
      ∧ joinAL (annotateGo gcount nd d ni i xs ys ml ys.flatten ops s).ap
          = ys.flatten.take
              (annotateGo gcount nd d ni i xs ys ml ys.flatten ops s).pOff := by
  intro ops
  induction ops with
  | nil => intro s h1 h2; exact ⟨h1, h2⟩
  | cons opn rest ih =>
    intro s h1 h2
    obtain ⟨op, n⟩ := opn
    rw [annotateGo]
    cases op
    case Deletion =>
      apply ih
      · simp only [annStep]
        exact h1
      · simp only [annStep]
        exact h2
    case NoOp =>
      apply ih
      · simp only [annStep]
        rw [h1, offAt_add]
      · simp only [annStep]
        rw [joinAL_snoc, h2]
        simp only [getSection]
        exact (List.take_add _ _ _).symm
    case Substitution =>
      apply ih
      · simp only [annStep]
        rw [h1, offAt_add]
      · simp only [annStep]
        rw [joinAL_snoc, h2]
        simp only [getSection]
        exact (List.take_add _ _ _).symm
    case Insertion =>
      apply ih
      · simp only [annStep]
        rw [h1, offAt_add]
      · simp only [annStep]
        rw [joinAL_snoc, h2]
        simp only [getSection]
        exact (List.take_add _ _ _).symm

/-- Every numerator contribution is matched by an equal denominator
contribution, so the numerator never exceeds the denominator. -/
theorem annotateGo_numer_le_denom {A : Type} (gcount : List Char → Nat)
    (nd d ni i : A) (xs ys : List (List Char)) (ml pl : List Char) :
    ∀ (ops : List (Op × Nat)) (s : AnnState A),
      s.numer ≤ s.denom →
      (annotateGo gcount nd d ni i xs ys ml pl ops s).numer
        ≤ (annotateGo gcount nd d ni i xs ys ml pl ops s).denom := by
  intro ops
  induction ops with
  | nil => intro s h; exact h
  | cons opn rest ih =>
    intro s h
    obtain ⟨op, n⟩ := opn
    rw [annotateGo]
    apply ih
    cases op <;> simp only [annStep] <;> omega

/-- A script consisting solely of `NoOp` runs never touches the numerator. -/
theorem annotateGo_allNoOp {A : Type} (gcount : List Char → Nat)
    (nd d ni i : A) (xs ys : List (List Char)) (ml pl : List Char) :
    ∀ (ops : List (Op × Nat)) (s : AnnState A),
      allNoOp ops = true →
      (annotateGo gcount nd d ni i xs ys ml pl ops s).numer = s.numer := by
  intro ops
  induction ops with
  | nil => intro s _; rfl
  | cons opn rest ih =>
    intro s h
    obtain ⟨op, n⟩ := opn
    simp only [allNoOp, List.all_cons, Bool.and_eq_true, decide_eq_true_eq] at h
    obtain ⟨h1, h2⟩ := h
    cases op
    case NoOp =>
      rw [annotateGo, ih _ (by simpa [allNoOp] using h2)]
      simp [annStep]
    all_goals simp at h1

/-- The numerator and denominator accumulated by `annotate`'s loop equal the
sums prescribed by the spec's distance rule (`distSpec`), computed over the
token sequences. -/
theorem annotateGo_dist {A : Type} (gcount : List Char → Nat) (nd d ni i : A)
    (xs ys : List (List Char)) :
    ∀ (ops : List (Op × Nat)) (s : AnnState A),
      s.mOff = offAt xs s.xOff →
      s.pOff = offAt ys s.yOff →
      (annotateGo gcount nd d ni i xs ys xs.flatten ys.flatten ops s).numer
          = s.numer + (distSpec gcount xs ys ops s.xOff s.yOff).1
      ∧ (annotateGo gcount nd d ni i xs ys xs.flatten ys.flatten ops s).denom
          = s.denom + (distSpec gcount xs ys ops s.xOff s.yOff).2 := by
  intro ops
  induction ops with
  | nil => intro s h1 h2; simp [annotateGo, distSpec]
  | cons opn rest ih =>
    intro s h1 h2
    obtain ⟨op, n⟩ := opn
    rw [annotateGo]
    cases op
    case Deletion =>
      have hsec : getSection xs s.xOff n s.mOff xs.flatten
          = ((xs.drop s.xOff).take n).flatten := by
        rw [h1, getSection_eq]
      have hrec := ih (annStep gcount nd d ni i xs ys xs.flatten ys.flatten
          (Op.Deletion, n) s)
        (by simp only [annStep]; rw [h1, offAt_add])
        (by simp only [annStep]; exact h2)
      simp only [annStep, hsec] at hrec ⊢
      rw [hrec.1, hrec.2]
      simp only [distSpec, hsec]
      constructor <;> first | trivial | omega
    case NoOp =>
      have hsec : getSection xs s.xOff n s.mOff xs.flatten
          = ((xs.drop s.xOff).take n).flatten := by
        rw [h1, getSection_eq]
      have hrec := ih (annStep gcount nd d ni i xs ys xs.flatten ys.flatten
          (Op.NoOp, n) s)
        (by simp only [annStep]; rw [h1, offAt_add])
        (by simp only [annStep]; rw [h2, offAt_add])
      simp only [annStep, hsec] at hrec ⊢
      rw [hrec.1, hrec.2]
      simp only [distSpec, hsec]
      constructor <;> first | trivial | omega
    case Substitution =>
      have hsec : getSection xs s.xOff n s.mOff xs.flatten
          = ((xs.drop s.xOff).take n).flatten := by
        rw [h1, getSection_eq]
      have hrec := ih (annStep gcount nd d ni i xs ys xs.flatten ys.flatten
          (Op.Substitution, n) s)
        (by simp only [annStep]; rw [h1, offAt_add])
        (by simp only [annStep]; rw [h2, offAt_add])
      simp only [annStep, hsec] at hrec ⊢
      rw [hrec.1, hrec.2]
      simp only [distSpec, hsec]
      constructor <;> first | trivial | omega
    case Insertion =>
      have hsec : getSection ys s.yOff n s.pOff ys.flatten
          = ((ys.drop s.yOff).take n).flatten := by
        rw [h2, getSection_eq]
      have hrec := ih (annStep gcount nd d ni i xs ys xs.flatten ys.flatten
          (Op.Insertion, n) s)
        (by simp only [annStep]; exact h1)
        (by simp only [annStep]; rw [h2, offAt_add])
      simp only [annStep, hsec] at hrec ⊢
      rw [hrec.1, hrec.2]
      simp only [distSpec, hsec]
      constructor <;> first | trivial | omega

/-- Reconstruction for `annotate` over arbitrary token partitions: with a
fully-consuming script, both annotated lines concatenate back to the
respective lines (stated for the lines `xs.flatten`, `ys.flatten`). -/
theorem annotate_recon_core {A : Type} (gcount : List Char → Nat) (nd d ni i : A)
    (xs ys : List (List Char)) (ops : List (Op × Nat))
    (hx : totalX ops = xs.length) (hy : totalY ops = ys.length) :
    joinAL (annotate gcount nd d ni i xs ys ops xs.flatten ys.flatten).1 = xs.flatten
    ∧ joinAL (annotate gcount nd d ni i xs ys ops xs.flatten ys.flatten).2.1
        = ys.flatten := by
  have hminus := annotateGo_minus gcount nd d ni i xs ys ys.flatten ops annInit
    (by simp [annInit, offAt]) (by simp [annInit, joinAL])
  have hplus := annotateGo_plus gcount nd d ni i xs ys xs.flatten ops annInit
    (by simp [annInit, offAt]) (by simp [annInit, joinAL])
  have hxoff := annotateGo_xOff gcount nd d ni i xs ys xs.flatten ys.flatten ops annInit
  have hyoff := annotateGo_yOff gcount nd d ni i xs ys xs.flatten ys.flatten ops annInit
  have ex : (annotateGo gcount nd d ni i xs ys xs.flatten ys.flatten ops annInit).xOff
      = xs.length := by
    rw [hxoff, hx]; simp [annInit]
  have ey : (annotateGo gcount nd d ni i xs ys xs.flatten ys.flatten ops annInit).yOff
      = ys.length := by
    rw [hyoff, hy]; simp [annInit]
  have e2 : offAt xs xs.length = xs.flatten.length := by
    unfold offAt
    rw [List.take_length xs, List.length_flatten]
  have e3 : offAt ys ys.length = ys.flatten.length := by
    unfold offAt
    rw [List.take_length ys, List.length_flatten]
  constructor
  · have h1 := hminus.2
    rw [hminus.1, ex, e2, List.take_length] at h1
    simpa [annotate] using h1
  · have h1 := hplus.2
    rw [hplus.1, ey, e3, List.take_length] at h1
    simpa [annotate] using h1

/-- Reconstruction over tokenized lines (helper shared by the claims). -/
theorem annotate_recon_tokenized {A : Type} (gcount : List Char → Nat)
    (nd d ni i : A) (minusLine plusLine : List Char) (ops : List (Op × Nat))
    (h : fullConsume ops (tokenize minusLine) (tokenize plusLine)) :
    joinAL (annotate gcount nd d ni i (tokenize minusLine) (tokenize plusLine)
        ops minusLine plusLine).1 = minusLine
    ∧ joinAL (annotate gcount nd d ni i (tokenize minusLine) (tokenize plusLine)
        ops minusLine plusLine).2.1 = plusLine := by
  have hm : (tokenize minusLine).flatten = minusLine := tokenizeP_join isSep minusLine
  have hp : (tokenize plusLine).flatten = plusLine := tokenizeP_join isSep plusLine
  have core := annotate_recon_core gcount nd d ni i (tokenize minusLine)
    (tokenize plusLine) ops h.1 h.2
  rw [hm, hp] at core
  exact core

/-- C1: for every minus line, plus line and edit script satisfying the
full-consumption invariant over the two tokenized lines, the annotated minus
and plus lines produced by `annotate` each satisfy the reconstruction
invariant: concatenating their substrings in order yields exactly the
original line. -/
theorem annotate_reconstruction {A : Type} (gcount : List Char → Nat)
    (nd d ni i : A) (minusLine plusLine : List Char) (ops : List (Op × Nat))
    (h : fullConsume ops (tokenize minusLine) (tokenize plusLine)) :
    joinAL (annotate gcount nd d ni i (tokenize minusLine) (tokenize plusLine)
        ops minusLine plusLine).1 = minusLine
    ∧ joinAL (annotate gcount nd d ni i (tokenize minusLine) (tokenize plusLine)
        ops minusLine plusLine).2.1 = plusLine :=
  annotate_recon_tokenized gcount nd d ni i minusLine plusLine ops h

/-- C1 witness: a concrete fully-consuming script over the tokenizations of
`"ab c"` and `"ab d"` reconstructs both lines. -/
theorem annotate_reconstruction_witness :
    joinAL (annotate (fun s : List Char => s.length) (0 : Nat) 1 2 3
        (tokenize "ab c".toList) (tokenize "ab d".toList)
        (alignSpec (tokenize "ab c".toList) (tokenize "ab d".toList))
        "ab c".toList "ab d".toList).1 = "ab c".toList
    ∧ joinAL (annotate (fun s : List Char => s.length) (0 : Nat) 1 2 3
        (tokenize "ab c".toList) (tokenize "ab d".toList)
        (alignSpec (tokenize "ab c".toList) (tokenize "ab d".toList))
        "ab c".toList "ab d".toList).2.1 = "ab d".toList :=
  annotate_reconstruction (fun s : List Char => s.length) (0 : Nat) 1 2 3
    "ab c".toList "ab d".toList
    (alignSpec (tokenize "ab c".toList) (tokenize "ab d".toList))
    ⟨by decide, by decide⟩

/-- C9: `annotate`'s distance accumulation follows the spec's rule exactly:
each `NoOp` run adds the trimmed grapheme count of its minus-side substring
to the denominator only, and each `Deletion`, `Substitution` and `Insertion`
run adds the trimmed grapheme count of its contributing substring to both
numerator and denominator (`distSpec` is that rule, written over the token
sequences; the final distance is their quotient). -/
theorem annotate_distance_accumulation {A : Type} (gcount : List Char → Nat)
    (nd d ni i : A) (minusLine plusLine : List Char) (ops : List (Op × Nat)) :
    (annotateGo gcount nd d ni i (tokenize minusLine) (tokenize plusLine)
        minusLine plusLine ops annInit).numer
      = (distSpec gcount (tokenize minusLine) (tokenize plusLine) ops 0 0).1
    ∧ (annotateGo gcount nd d ni i (tokenize minusLine) (tokenize plusLine)
        minusLine plusLine ops annInit).denom
      = (distSpec gcount (tokenize minusLine) (tokenize plusLine) ops 0 0).2
    ∧ (annotate gcount nd d ni i (tokenize minusLine) (tokenize plusLine)
        ops minusLine plusLine).2.2
      = mkDist (distSpec gcount (tokenize minusLine) (tokenize plusLine) ops 0 0).1
          (distSpec gcount (tokenize minusLine) (tokenize plusLine) ops 0 0).2 := by
  have hm : (tokenize minusLine).flatten = minusLine := tokenizeP_join isSep minusLine
  have hp : (tokenize plusLine).flatten = plusLine := tokenizeP_join isSep plusLine
  have core := annotateGo_dist gcount nd d ni i (tokenize minusLine)
    (tokenize plusLine) ops annInit (by simp [annInit, offAt]) (by simp [annInit, offAt])
  rw [hm, hp] at core
  simp only [annInit, Nat.zero_add] at core
  simp only [annInit]
  refine ⟨core.1, core.2, ?_⟩
  simp only [annotate, annInit]
  rw [core.1, core.2]

/-- C3 (amended): for every pair of lines and fully-consuming edit script,
whenever the accumulated denominator is positive the distance returned by
`annotate` is a value in [0, 1], and it equals 0 exactly when the accumulated
numerator is 0 (which an all-`NoOp` script always ensures).  The claim's
unconditional form is false: an empty denominator (e.g. two empty lines)
yields NaN, and a changed-but-whitespace-only section can give distance 0
with a non-`NoOp` script. -/
theorem annotate_distance_bounds {A : Type} (gcount : List Char → Nat)
    (nd d ni i : A) (minusLine plusLine : List Char) (ops : List (Op × Nat))
    (_hval : fullConsume ops (tokenize minusLine) (tokenize plusLine))
    (hd : 0 < (annotateGo gcount nd d ni i (tokenize minusLine) (tokenize plusLine)
        minusLine plusLine ops annInit).denom) :
    (∃ q : ℚ, (annotate gcount nd d ni i (tokenize minusLine) (tokenize plusLine)
        ops minusLine plusLine).2.2 = DistVal.val q ∧ 0 ≤ q ∧ q ≤ 1)
    ∧ ((annotate gcount nd d ni i (tokenize minusLine) (tokenize plusLine)
        ops minusLine plusLine).2.2 = DistVal.val 0
      ↔ (annotateGo gcount nd d ni i (tokenize minusLine) (tokenize plusLine)
        minusLine plusLine ops annInit).numer = 0)
    ∧ (allNoOp ops = true →
      (annotateGo gcount nd d ni i (tokenize minusLine) (tokenize plusLine)
        minusLine plusLine ops annInit).numer = 0) := by
  have hle := annotateGo_numer_le_denom gcount nd d ni i (tokenize minusLine)
    (tokenize plusLine) minusLine plusLine ops annInit (by simp [annInit])
  set s := annotateGo gcount nd d ni i (tokenize minusLine) (tokenize plusLine)
    minusLine plusLine ops annInit with hs
  have hdz : s.denom ≠ 0 := Nat.pos_iff_ne_zero.mp hd
  have hda : (annotate gcount nd d ni i (tokenize minusLine) (tokenize plusLine)
      ops minusLine plusLine).2.2 = DistVal.val (mkRat s.numer s.denom) := by
    simp only [annotate, mkDist, ← hs]
    rw [if_neg hdz]
  have hdiv : (mkRat s.numer s.denom : ℚ) = (s.numer : ℚ) / (s.denom : ℚ) := by
    rw [Rat.mkRat_eq_div]
    push_cast
    ring
  have hdpos : (0 : ℚ) < (s.denom : ℚ) := by exact_mod_cast hd
  refine ⟨⟨mkRat s.numer s.denom, hda, ?_, ?_⟩, ?_, ?_⟩
  · rw [hdiv]
    positivity
  · rw [hdiv, div_le_one hdpos]
    exact_mod_cast hle
  · rw [hda]
    constructor
    · intro h
      have hq : mkRat (s.numer : Int) s.denom = 0 := by
        injection h
      have := (Rat.mkRat_eq_zero (by exact_mod_cast hdz)).mp hq
      exact_mod_cast this
    · intro h
      rw [h]
      simp
  · intro h
    have := annotateGo_allNoOp gcount nd d ni i (tokenize minusLine)
      (tokenize plusLine) minusLine plusLine ops annInit h
    rw [← hs] at this
    simpa [annInit] using this

/-- C3 witness: on `"a"` vs `"b"` with the substitution script, the
denominator is positive, the distance is a value, and it is zero iff the
numerator is zero (here both sides of the equivalence are false). -/
theorem annotate_distance_bounds_witness :
    (annotate (fun s : List Char => s.length) (0 : Nat) 1 2 3 (tokenize ['a'])
        (tokenize ['b']) [(Op.Substitution, 1)] ['a'] ['b']).2.2 = DistVal.val 0
    ↔ (annotateGo (fun s : List Char => s.length) (0 : Nat) 1 2 3 (tokenize ['a'])
        (tokenize ['b']) ['a'] ['b'] [(Op.Substitution, 1)] annInit).numer = 0 :=
  (annotate_distance_bounds (fun s : List Char => s.length) (0 : Nat) 1 2 3
    ['a'] ['b'] [(Op.Substitution, 1)] ⟨by decide, by decide⟩ (by decide)).2.1

/-- C3 (counterexample): the claim as stated fails in two independent ways.
(a) For the two empty lines with the empty — trivially fully-consuming and
vacuously all-`NoOp` — edit script, the distance is NaN: it is not a value in
[0, 1], and it is not 0 although every operation of the script is `NoOp`.
(b) For minus line `"a "`, plus line `"a "` and the fully-consuming script
`[NoOp 1, Substitution 1]`, the denominator is positive and the script is not
all-`NoOp`, yet the distance is exactly 0 — the substituted section is the
trailing space, which trims to nothing — so distance 0 does not imply an
all-`NoOp` script. -/
theorem annotate_distance_bounds_cex :
    (fullConsume [] (tokenize []) (tokenize [])
      ∧ allNoOp [] = true
      ∧ (annotate (fun s : List Char => s.length) (0 : Nat) 1 2 3 (tokenize [])
          (tokenize []) [] [] []).2.2 = DistVal.nan
      ∧ ¬ ((∃ q : ℚ, (annotate (fun s : List Char => s.length) (0 : Nat) 1 2 3
            (tokenize []) (tokenize []) [] [] []).2.2 = DistVal.val q
            ∧ 0 ≤ q ∧ q ≤ 1)
        ∧ ((annotate (fun s : List Char => s.length) (0 : Nat) 1 2 3 (tokenize [])
            (tokenize []) [] [] []).2.2 = DistVal.val 0 ↔ allNoOp [] = true)))
    ∧ (fullConsume [(Op.NoOp, 1), (Op.Substitution, 1)] (tokenize "a ".toList)
          (tokenize "a ".toList)
      ∧ 0 < (annotateGo (fun s : List Char => s.length) (0 : Nat) 1 2 3
          (tokenize "a ".toList) (tokenize "a ".toList) "a ".toList "a ".toList
          [(Op.NoOp, 1), (Op.Substitution, 1)] annInit).denom
      ∧ allNoOp [(Op.NoOp, 1), (Op.Substitution, 1)] = false
      ∧ (annotate (fun s : List Char => s.length) (0 : Nat) 1 2 3
          (tokenize "a ".toList) (tokenize "a ".toList)
          [(Op.NoOp, 1), (Op.Substitution, 1)] "a ".toList "a ".toList).2.2
          = DistVal.val 0
      ∧ ¬ ((∃ q : ℚ, (annotate (fun s : List Char => s.length) (0 : Nat) 1 2 3
            (tokenize "a ".toList) (tokenize "a ".toList)
            [(Op.NoOp, 1), (Op.Substitution, 1)] "a ".toList "a ".toList).2.2
            = DistVal.val q ∧ 0 ≤ q ∧ q ≤ 1)
        ∧ ((annotate (fun s : List Char => s.length) (0 : Nat) 1 2 3
            (tokenize "a ".toList) (tokenize "a ".toList)
            [(Op.NoOp, 1), (Op.Substitution, 1)] "a ".toList "a ".toList).2.2
            = DistVal.val 0
          ↔ allNoOp [(Op.NoOp, 1), (Op.Substitution, 1)] = true))) := by
  constructor
  · refine ⟨⟨rfl, rfl⟩, rfl, rfl, ?_⟩
    rintro ⟨-, hiff⟩
    have h := hiff.mpr rfl
    rw [show (annotate (fun s : List Char => s.length) (0 : Nat) 1 2 3 (tokenize [])
        (tokenize []) [] [] []).2.2 = DistVal.nan from rfl] at h
    exact DistVal.noConfusion h
  · refine ⟨⟨by decide, by decide⟩, by decide, by decide, by decide, ?_⟩
    rintro ⟨-, hiff⟩
    exact absurd (hiff.mp (by decide)) (by decide)

/-- Zero denominator gives NaN (helper shared by the claims). -/
theorem annotate_denom_nan_core {A : Type} (gcount : List Char → Nat)
    (nd d ni i : A) (xs ys : List (List Char)) (ops : List (Op × Nat))
    (ml pl : List Char)
    (hd : (annotateGo gcount nd d ni i xs ys ml pl ops annInit).denom = 0) :
    (annotate gcount nd d ni i xs ys ops ml pl).2.2 = DistVal.nan
    ∧ (annotate gcount nd d ni i xs ys ops ml pl).2.2 ≠ DistVal.val 0
    ∧ ∀ t : ℚ, dleQ (annotate gcount nd d ni i xs ys ops ml pl).2.2 t = false := by
  have hle := annotateGo_numer_le_denom gcount nd d ni i xs ys ml pl ops annInit
    (by simp [annInit])
  have hnum : (annotateGo gcount nd d ni i xs ys ml pl ops annInit).numer = 0 := by
    omega
  have hnan : (annotate gcount nd d ni i xs ys ops ml pl).2.2 = DistVal.nan := by
    simp only [annotate, mkDist]
    rw [if_pos hd, if_pos hnum]
  refine ⟨hnan, ?_, ?_⟩
  · rw [hnan]
    exact fun h => DistVal.noConfusion h
  · intro t
    rw [hnan]
    rfl

/-- C2 (amended): when the accumulated denominator is zero, the distance
returned by `annotate` is NaN — the IEEE value of `0.0 / 0.0` (the numerator
is necessarily zero too) — not 0, and NaN fails every `<=` comparison, so
such a pair can never be accepted as homologous. -/
theorem annotate_zero_denom_nan {A : Type} (gcount : List Char → Nat)
    (nd d ni i : A) (xs ys : List (List Char)) (ops : List (Op × Nat))
    (ml pl : List Char)
    (hd : (annotateGo gcount nd d ni i xs ys ml pl ops annInit).denom = 0) :
    (annotate gcount nd d ni i xs ys ops ml pl).2.2 = DistVal.nan
    ∧ (annotate gcount nd d ni i xs ys ops ml pl).2.2 ≠ DistVal.val 0
    ∧ ∀ t : ℚ, dleQ (annotate gcount nd d ni i xs ys ops ml pl).2.2 t = false :=
  annotate_denom_nan_core gcount nd d ni i xs ys ops ml pl hd

/-- C2 witness: with empty token lists, lines and script the denominator is
zero and the distance is NaN, unequal to 0 and failing the comparison with
threshold 5. -/
theorem annotate_zero_denom_nan_witness :
    (annotate (fun s : List Char => s.length) (0 : Nat) 1 2 3 [] [] [] [] []).2.2
        = DistVal.nan
    ∧ dleQ (annotate (fun s : List Char => s.length) (0 : Nat) 1 2 3
        [] [] [] [] []).2.2 5 = false :=
  ⟨(annotate_zero_denom_nan (fun s : List Char => s.length) (0 : Nat) 1 2 3
      [] [] [] [] [] (by decide)).1,
   (annotate_zero_denom_nan (fun s : List Char => s.length) (0 : Nat) 1 2 3
      [] [] [] [] [] (by decide)).2.2 5⟩

/-- C2 (counterexample): on two empty lines the accumulated denominator is
zero, and the distance returned by `annotate` is NaN — not 0 as claimed. -/
theorem annotate_zero_denom_cex :
    (annotateGo (fun s : List Char => s.length) (0 : Nat) 1 2 3 (tokenize [])
        (tokenize []) [] [] [] annInit).denom = 0
    ∧ (annotate (fun s : List Char => s.length) (0 : Nat) 1 2 3 (tokenize [])
        (tokenize []) [] [] []).2.2 = DistVal.nan
    ∧ (annotate (fun s : List Char => s.length) (0 : Nat) 1 2 3 (tokenize [])
        (tokenize []) [] [] []).2.2 ≠ DistVal.val 0 :=
  ⟨rfl, rfl, fun h => DistVal.noConfusion h⟩

theorem all_takeWhile (p : Char → Bool) (l : List Char) :
    ((l.takeWhile p).all p) = true := by
  rw [List.all_eq_true]
  intro x hx
  exact List.mem_takeWhile_imp hx

/-- The scanner's first token is always the leading content run. -/
theorem tokenizeGo_head (p : Char → Bool) (fuel : Nat) (c : Char) (cs : List Char)
    (h : (c :: cs).length ≤ fuel) :
    (tokenizeGo p fuel (c :: cs)).head?
      = some ((c :: cs).takeWhile (fun x => !p x)) := by
  cases fuel with
  | zero => simp at h
  | succ f =>
    simp only [tokenizeGo]
    split <;> rfl

/-- The scanner's output alternates content runs and non-empty separator
runs, and a content run that follows a separator run is non-empty. -/
theorem tokenizeGo_altRuns :
    ∀ (fuel : Nat) (l : List Char), l.length ≤ fuel →
      altRuns false (tokenizeGo isSep fuel l) = true := by
  intro fuel
  induction fuel with
  | zero =>
    intro l hl
    cases l with
    | nil => rfl
    | cons c cs => simp at hl
  | succ f ih =>
    intro l hl
    cases l with
    | nil => rfl
    | cons c cs =>
      simp only [tokenizeGo]
      split
      case h_1 heq =>
        simp only [altRuns, Bool.and_eq_true]
        exact ⟨all_takeWhile _ _, trivial⟩
      case h_2 r rs heq =>
        have hpr : isSep r = true := by
          have := List.head?_dropWhile_not (fun x => !isSep x) (c :: cs)
          rw [heq] at this
          simpa using this
        have hlen : ((r :: rs).dropWhile isSep).length ≤ f := by
          have hlt := dropWhile_twice_lt c cs r rs heq
          simp only [List.length_cons] at hl hlt
          omega
        have hrest := ih ((r :: rs).dropWhile isSep) hlen
        simp only [altRuns, Bool.and_eq_true]
        refine ⟨all_takeWhile _ _, ⟨⟨?_, all_takeWhile _ _⟩, ?_⟩, hrest⟩
        · simp [List.takeWhile_cons, hpr]
        · cases hrest2 : (r :: rs).dropWhile isSep with
          | nil => simp [tokenizeGo]
          | cons u us =>
            have hu : isSep u = false := by
              have := List.head?_dropWhile_not isSep (r :: rs)
              rw [hrest2] at this
              simpa using this
            rw [hrest2] at hlen
            have hhead := tokenizeGo_head isSep f u us hlen
            cases htoks : tokenizeGo isSep f (u :: us) with
            | nil => simp
            | cons t ts =>
              rw [htoks] at hhead
              simp only [List.head?_cons, Option.some.injEq] at hhead
              subst hhead
              simp [List.takeWhile_cons, hu]

/-- In a well-alternating token list every token is non-empty except possibly
the leading content token. -/
theorem altRuns_nonempty :
    ∀ ts : List (List Char),
      (altRuns true ts = true → ts.all (fun t => !t.isEmpty) = true)
      ∧ (altRuns false ts = true → ts.tail.all (fun t => !t.isEmpty) = true) := by
  intro ts
  induction ts with
  | nil => exact ⟨fun _ => rfl, fun _ => rfl⟩
  | cons t rest ih =>
    constructor
    · intro h
      simp only [altRuns, Bool.and_eq_true] at h
      obtain ⟨⟨⟨hne, -⟩, hmatch⟩, halt⟩ := h
      rw [List.all_cons, Bool.and_eq_true]
      refine ⟨hne, ?_⟩
      cases rest with
      | nil => rfl
      | cons u us =>
        rw [List.all_cons, Bool.and_eq_true]
        refine ⟨hmatch, ?_⟩
        simp only [altRuns, Bool.and_eq_true] at halt
        simpa using ih.2 (by simp only [altRuns, Bool.and_eq_true]; exact halt)
    · intro h
      simp only [altRuns, Bool.and_eq_true] at h
      exact ih.1 h.2

/-- C7: for every line, the tokens returned by `tokenize` concatenate in
order to exactly that line (a contiguous, non-overlapping, order-preserving
partition). -/
theorem tokenize_partition (l : List Char) : (tokenize l).flatten = l :=
  tokenizeP_join isSep l

/-- C4 (amended): the separator class of `tokenize` is the claimed set
*plus the period* — `{space, comma, semicolon, colon, period, (, ), [, ], <,
>}` — and the output of `tokenize` alternates content runs (no separator
characters) and non-empty maximal separator runs (maximality: a content run
between two separator runs is never empty, so adjacent separator runs never
occur). -/
theorem tokenize_separator_class :
    (∀ c : Char, isSep c = amendedSepSet c)
    ∧ (∀ l : List Char, altRuns false (tokenize l) = true) := by
  constructor
  · intro c
    simp only [isSep, amendedSepSet, List.contains_cons, List.contains_nil]
    cases h : (c == '.') <;> simp [h]
  · intro l
    exact tokenizeGo_altRuns l.length l (Nat.le_refl _)

/-- C4 (counterexample): the period is a separator for `tokenize` but lies
outside the claimed set: on `"a.b"` the source's tokenizer splits at `'.'`
(producing the separator token `"."` made of a character outside the claimed
set), while a scanner using the claimed set would leave the line whole. -/
theorem tokenize_separator_class_cex :
    claimedSepSet '.' = false
    ∧ isSep '.' = true
    ∧ tokenize "a.b".toList = [['a'], ['.'], ['b']]
    ∧ tokenizeP claimedSepSet "a.b".toList = [['a', '.', 'b']]
    ∧ tokenize "a.b".toList ≠ tokenizeP claimedSepSet "a.b".toList :=
  ⟨rfl, rfl, by decide, by decide, by decide⟩

/-- C8 (amended): `tokenize` emits an empty token in exactly one situation —
as the *leading* content token of a line that begins with a separator; every
token after the first is non-empty, and in particular a line ending in a
separator run produces no trailing empty content token.  The claim that
`tokenize` never emits an empty token is false for leading separators. -/
theorem tokenize_empty_tokens :
    ∀ l : List Char,
      (tokenize l).tail.all (fun t => !t.isEmpty) = true
      ∧ ((tokenize l).head? = some []
          ↔ ∃ c cs, l = c :: cs ∧ isSep c = true) := by
  intro l
  constructor
  · exact (altRuns_nonempty (tokenize l)).2 (tokenizeGo_altRuns l.length l (Nat.le_refl _))
  · cases l with
    | nil =>
      constructor
      · intro h
        simp [tokenize, tokenizeP, tokenizeGo] at h
      · rintro ⟨c, cs, h, -⟩
        exact List.noConfusion h
    | cons c cs =>
      rw [show tokenize (c :: cs) = tokenizeGo isSep (c :: cs).length (c :: cs) from rfl,
          tokenizeGo_head isSep (c :: cs).length c cs (Nat.le_refl _)]
      constructor
      · intro h
        refine ⟨c, cs, rfl, ?_⟩
        simp only [Option.some.injEq] at h
        rw [List.takeWhile_cons] at h
        by_cases hc : isSep c
        · exact hc
        · simp [hc] at h
      · rintro ⟨c', cs', heq, hsep⟩
        obtain ⟨rfl, rfl⟩ : c = c' ∧ cs = cs' := by
          constructor <;> injection heq
        rw [List.takeWhile_cons]
        simp [hsep]

/-- C8 (counterexample): the line `" a"` begins with a separator, and
`tokenize` emits a leading *empty* content token for it. -/
theorem tokenize_empty_tokens_cex :
    tokenize " a".toList = [[], [' '], ['a']]
    ∧ [] ∈ tokenize " a".toList :=
  ⟨by decide, by decide⟩

theorem consumeX_succ (o : Op) (n : Nat) :
    consumeX (o, n + 1) = consumeX (o, n) + consumeX (o, 1) := by
  cases o <;> simp [consumeX]

theorem consumeY_succ (o : Op) (n : Nat) :
    consumeY (o, n + 1) = consumeY (o, n) + consumeY (o, 1) := by
  cases o <;> simp [consumeY]

theorem sum_map_one {α : Type} (l : List α) :
    (l.map (fun _ => (1 : Nat))).sum = l.length := by
  induction l with
  | nil => rfl
  | cons a l ih =>
    simp only [List.map_cons, List.sum_cons, ih, List.length_cons]
    omega

theorem sum_map_zero {α : Type} (l : List α) :
    (l.map (fun _ => (0 : Nat))).sum = 0 := by
  induction l <;> simp_all

/-- Run-length encoding preserves the minus-side consumption total. -/
theorem totalX_rle (os : List Op) :
    totalX (rle os) = (os.map (fun o => consumeX (o, 1))).sum := by
  induction os with
  | nil => rfl
  | cons o os ih =>
    rw [List.map_cons, List.sum_cons, ← ih]
    cases hr : rle os with
    | nil => simp [rle, hr, totalX]
    | cons p rest =>
      obtain ⟨o2, n⟩ := p
      have he : rle (o :: os) = if o = o2 then (o2, n + 1) :: rest
          else (o, 1) :: (o2, n) :: rest := by
        rw [rle, hr]
      rw [he]
      by_cases ho : o = o2
      · subst ho
        rw [if_pos rfl]
        simp only [totalX, List.map_cons, List.sum_cons]
        rw [consumeX_succ]
        omega
      · rw [if_neg ho]
        simp only [totalX, List.map_cons, List.sum_cons]

/-- Run-length encoding preserves the plus-side consumption total. -/
theorem totalY_rle (os : List Op) :
    totalY (rle os) = (os.map (fun o => consumeY (o, 1))).sum := by
  induction os with
  | nil => rfl
  | cons o os ih =>
    rw [List.map_cons, List.sum_cons, ← ih]
    cases hr : rle os with
    | nil => simp [rle, hr, totalY]
    | cons p rest =>
      obtain ⟨o2, n⟩ := p
      have he : rle (o :: os) = if o = o2 then (o2, n + 1) :: rest
          else (o, 1) :: (o2, n) :: rest := by
        rw [rle, hr]
      rw [he]
      by_cases ho : o = o2
      · subst ho
        rw [if_pos rfl]
        simp only [totalY, List.map_cons, List.sum_cons]
        rw [consumeY_succ]
        omega
      · rw [if_neg ho]
        simp only [totalY, List.map_cons, List.sum_cons]

theorem alignRaw_totalX :
    ∀ xs ys : List (List Char),
      ((alignRaw xs ys).map (fun o => consumeX (o, 1))).sum = xs.length := by
  intro xs
  induction xs with
  | nil =>
    intro ys
    rw [alignRaw, List.map_map]
    rw [show ((fun o => consumeX (o, 1)) ∘ (fun _ : List Char => Op.Insertion))
        = (fun _ : List Char => (0 : Nat)) from rfl]
    rw [sum_map_zero]
    rfl
  | cons x xs ih =>
    intro ys
    cases ys with
    | nil =>
      rw [alignRaw, List.map_map]
      rw [show ((fun o => consumeX (o, 1)) ∘ (fun _ : List Char => Op.Deletion))
          = (fun _ : List Char => (1 : Nat)) from rfl]
      rw [sum_map_one]
    | cons y ys2 =>
      rw [alignRaw]
      by_cases h : x = y
      · rw [if_pos h, List.map_cons, List.sum_cons, ih ys2]
        show 1 + xs.length = (x :: xs).length
        simp only [List.length_cons]
        omega
      · rw [if_neg h, List.map_cons, List.sum_cons, ih ys2]
        show 1 + xs.length = (x :: xs).length
        simp only [List.length_cons]
        omega

theorem alignRaw_totalY :
    ∀ xs ys : List (List Char),
      ((alignRaw xs ys).map (fun o => consumeY (o, 1))).sum = ys.length := by
  intro xs
  induction xs with
  | nil =>
    intro ys
    rw [alignRaw, List.map_map]
    rw [show ((fun o => consumeY (o, 1)) ∘ (fun _ : List Char => Op.Insertion))
        = (fun _ : List Char => (1 : Nat)) from rfl]
    rw [sum_map_one]
  | cons x xs ih =>
    intro ys
    cases ys with
    | nil =>
      rw [alignRaw, List.map_map]
      rw [show ((fun o => consumeY (o, 1)) ∘ (fun _ : List Char => Op.Deletion))
          = (fun _ : List Char => (0 : Nat)) from rfl]
      rw [sum_map_zero]
      rfl
    | cons y ys2 =>
      rw [alignRaw]
      by_cases h : x = y
      · rw [if_pos h, List.map_cons, List.sum_cons, ih ys2]
        show 1 + ys2.length = (y :: ys2).length
        simp only [List.length_cons]
        omega
      · rw [if_neg h, List.map_cons, List.sum_cons, ih ys2]
        show 1 + ys2.length = (y :: ys2).length
        simp only [List.length_cons]
        omega

/-- The modelled alignment engine satisfies the spec's full-consumption
contract on every pair of token sequences. -/
theorem alignSpec_fullConsume (xs ys : List (List Char)) :
    fullConsume (alignSpec xs ys) xs ys := by
  constructor
  · rw [alignSpec, totalX_rle, alignRaw_totalX]
  · rw [alignSpec, totalY_rle, alignRaw_totalY]

/-- Anatomy of a successful candidate scan: the plus list splits into the
rejected prefix, the matched plus line — whose annotation pair is exactly
`annotate`'s output and whose distance passes the threshold — and the rest. -/
theorem scanPlus_some {A : Type} (gcount : List Char → Nat) (nd d ni i : A)
    (alignFn : List (List Char) → List (List Char) → List (Op × Nat))
    (maxd : ℚ) (m : List Char) :
    ∀ (plus rej : List (List Char)) (am ap : AL A) (rest : List (List Char)),
      scanPlus gcount nd d ni i alignFn maxd m plus = some (rej, am, ap, rest) →
      ∃ pl : List Char,
        plus = rej ++ pl :: rest
        ∧ am = (annotate gcount nd d ni i (tokenize m) (tokenize pl)
            (alignFn (tokenize m) (tokenize pl)) m pl).1
        ∧ ap = (annotate gcount nd d ni i (tokenize m) (tokenize pl)
            (alignFn (tokenize m) (tokenize pl)) m pl).2.1
        ∧ dleQ (annotate gcount nd d ni i (tokenize m) (tokenize pl)
            (alignFn (tokenize m) (tokenize pl)) m pl).2.2 maxd = true := by
  intro plus
  induction plus with
  | nil =>
    intro rej am ap rest h
    simp [scanPlus] at h
  | cons p ps ih =>
    intro rej am ap rest h
    simp only [scanPlus] at h
    split at h
    case isTrue hd =>
      simp only [Option.some.injEq, Prod.mk.injEq] at h
      obtain ⟨h1, h2, h3, h4⟩ := h
      subst h1
      subst h2
      subst h3
      subst h4
      exact ⟨p, by simp, rfl, rfl, hd⟩
    case isFalse hd =>
      split at h
      case h_1 rej2 am2 ap2 rest2 heq =>
        simp only [Option.some.injEq, Prod.mk.injEq] at h
        obtain ⟨h1, h2, h3, h4⟩ := h
        obtain ⟨pl, hplus, ham, hap, hdle⟩ := ih rej2 am2 ap2 rest2 heq
        subst h1
        subst h2
        subst h3
        subst h4
        refine ⟨pl, ?_, ham, hap, hdle⟩
        rw [hplus]
        rfl
      case h_2 heq =>
        exact absurd h (by simp)

/-- Order-preserving 1:1 reconstruction of `infer_edits`'s two outputs. -/
theorem infer_edits_recon {A : Type} (gcount : List Char → Nat) (nd d ni i : A)
    (alignFn : List (List Char) → List (List Char) → List (Op × Nat))
    (maxd : ℚ)
    (halign : ∀ xs ys, fullConsume (alignFn xs ys) xs ys) :
    ∀ (minus plus : List (List Char)),
      (infer_edits gcount nd d ni i alignFn maxd minus plus).1.map joinAL = minus
      ∧ (infer_edits gcount nd d ni i alignFn maxd minus plus).2.map joinAL
          = plus := by
  intro minus
  induction minus with
  | nil =>
    intro plus
    constructor
    · rfl
    · simp only [infer_edits, List.map_map]
      have he : (joinAL ∘ fun p : List Char => [(ni, p)]) = fun p => p :=
        funext fun p => by simp [joinAL]
      rw [he]
      exact List.map_id' plus
  | cons m ms ih =>
    intro plus
    simp only [infer_edits]
    cases hscan : scanPlus gcount nd d ni i alignFn maxd m plus with
    | some r =>
      obtain ⟨rej, am, ap, rest⟩ := r
      obtain ⟨pl, hplus, ham, hap, hdle⟩ :=
        scanPlus_some gcount nd d ni i alignFn maxd m plus rej am ap rest hscan
      have hrec := annotate_recon_tokenized gcount nd d ni i m pl
        (alignFn (tokenize m) (tokenize pl)) (halign _ _)
      constructor
      · simp only [List.map_cons]
        rw [ham, hrec.1, (ih rest).1]
      · have hrej : (rej.map (fun p : List Char => [(ni, p)])).map joinAL = rej := by
          rw [List.map_map]
          have he : (joinAL ∘ fun p : List Char => [(ni, p)]) = fun p => p :=
            funext fun p => by simp [joinAL]
          rw [he]
          exact List.map_id' rej
        simp only [List.map_append, List.map_cons]
        rw [hrej, hap, hrec.2, (ih rest).2, hplus]
    | none =>
      constructor
      · simp only [List.map_cons]
        rw [(ih plus).1]
        have hm : joinAL [(nd, m)] = m := by simp [joinAL]
        rw [hm]
      · exact (ih plus).2

/-- C6: for every pair of input line lists (and any alignment engine
satisfying the full-consumption contract), `infer_edits` returns exactly one
annotated minus line per input minus line and exactly one annotated plus line
per input plus line, in input order: the outputs have the input lengths and
the annotated line at each index reconstructs the input line at that index. -/
theorem infer_edits_counts {A : Type} (gcount : List Char → Nat) (nd d ni i : A)
    (alignFn : List (List Char) → List (List Char) → List (Op × Nat))
    (maxd : ℚ)
    (halign : ∀ xs ys, fullConsume (alignFn xs ys) xs ys)
    (minus plus : List (List Char)) :
    (infer_edits gcount nd d ni i alignFn maxd minus plus).1.length = minus.length
    ∧ (infer_edits gcount nd d ni i alignFn maxd minus plus).2.length = plus.length
    ∧ (infer_edits gcount nd d ni i alignFn maxd minus plus).1.map joinAL = minus
    ∧ (infer_edits gcount nd d ni i alignFn maxd minus plus).2.map joinAL
        = plus := by
  have h := infer_edits_recon gcount nd d ni i alignFn maxd halign minus plus
  refine ⟨?_, ?_, h.1, h.2⟩
  · have := congrArg List.length h.1
    simpa using this
  · have := congrArg List.length h.2
    simpa using this

/-- C6 witness: a 1-line instance with the modelled engine. -/
theorem infer_edits_counts_witness :
    (infer_edits (fun s : List Char => s.length) (0 : Nat) 1 2 3 alignSpec 1
        [['a']] [['b']]).1.length = 1
    ∧ (infer_edits (fun s : List Char => s.length) (0 : Nat) 1 2 3 alignSpec 1
        [['a']] [['b']]).2.length = 1
    ∧ (infer_edits (fun s : List Char => s.length) (0 : Nat) 1 2 3 alignSpec 1
        [['a']] [['b']]).1.map joinAL = [['a']]
    ∧ (infer_edits (fun s : List Char => s.length) (0 : Nat) 1 2 3 alignSpec 1
        [['a']] [['b']]).2.map joinAL = [['b']] :=
  infer_edits_counts (fun s : List Char => s.length) (0 : Nat) 1 2 3 alignSpec 1
    alignSpec_fullConsume [['a']] [['b']]

/-- A single acceptance test is monotone in the threshold (NaN stays
rejected at every threshold). -/
theorem dleQ_mono (dv : DistVal) (t1 t2 : ℚ) (h : t1 ≤ t2) :
    dleQ dv t1 = true → dleQ dv t2 = true := by
  cases dv with
  | nan => intro hc; exact absurd hc (by simp [dleQ])
  | inf => intro hc; exact absurd hc (by simp [dleQ])
  | val q =>
    simp only [dleQ, decide_eq_true_eq]
    intro hq
    exact le_trans hq h

/-- A candidate scan that succeeds at threshold `t1` also succeeds at any
threshold `t2 ≥ t1` (possibly accepting an earlier candidate). -/
theorem scanPlus_mono {A : Type} (gcount : List Char → Nat) (nd d ni i : A)
    (alignFn : List (List Char) → List (List Char) → List (Op × Nat))
    (t1 t2 : ℚ) (h12 : t1 ≤ t2) (m : List Char) :
    ∀ (plus : List (List Char))
      (r : List (List Char) × AL A × AL A × List (List Char)),
      scanPlus gcount nd d ni i alignFn t1 m plus = some r →
      ∃ r2, scanPlus gcount nd d ni i alignFn t2 m plus = some r2 := by
  intro plus
  induction plus with
  | nil =>
    intro r h
    simp [scanPlus] at h
  | cons p ps ih =>
    intro r h
    simp only [scanPlus] at h ⊢
    by_cases hd2 : dleQ (annotate gcount nd d ni i (tokenize m) (tokenize p)
        (alignFn (tokenize m) (tokenize p)) m p).2.2 t2 = true
    · rw [if_pos hd2]
      exact ⟨_, rfl⟩
    · have hd1 : ¬ dleQ (annotate gcount nd d ni i (tokenize m) (tokenize p)
          (alignFn (tokenize m) (tokenize p)) m p).2.2 t1 = true := by
        intro hc
        exact hd2 (dleQ_mono _ t1 t2 h12 hc)
      rw [if_neg hd1] at h
      rw [if_neg hd2]
      cases hs : scanPlus gcount nd d ni i alignFn t1 m ps with
      | none => rw [hs] at h; exact absurd h (by simp)
      | some r1 =>
        obtain ⟨r2, hs2⟩ := ih r1 hs
        obtain ⟨a2, b2, c2, d2⟩ := r2
        rw [hs2]
        exact ⟨_, rfl⟩

/-- C5 (amended): the homology decision is monotone in the threshold for the
*first* minus line: if the first minus line of the block is emitted as a
homologous pair at threshold `t1`, it is also emitted as a homologous pair at
every threshold `t2 ≥ t1`.  (The claim's form quantifying over all minus
lines is false: a minus line newly matched at the larger threshold can
consume the plus line a later minus line was matched to, see the
counterexample.) -/
theorem inferMatches_head_mono {A : Type} (gcount : List Char → Nat)
    (nd d ni i : A)
    (alignFn : List (List Char) → List (List Char) → List (Op × Nat))
    (t1 t2 : ℚ) (h12 : t1 ≤ t2) (m : List Char) (ms plus : List (List Char))
    (h : (inferMatches gcount nd d ni i alignFn t1 (m :: ms) plus).head?
        = some true) :
    (inferMatches gcount nd d ni i alignFn t2 (m :: ms) plus).head?
        = some true := by
  rw [inferMatches] at h ⊢
  cases h1 : scanPlus gcount nd d ni i alignFn t1 m plus with
  | none =>
    rw [h1] at h
    simp at h
  | some r =>
    obtain ⟨r2, h2⟩ := scanPlus_mono gcount nd d ni i alignFn t1 t2 h12 m plus r h1
    obtain ⟨a2, b2, c2, d2⟩ := r2
    rw [h2]
    rfl

/-- C5 amended-claim witness: a first minus line matched at threshold 0 stays
matched at threshold 1. -/
theorem inferMatches_head_mono_witness :
    (inferMatches (fun s : List Char => s.length) (0 : Nat) 1 2 3 alignSpec 1
        [['a']] [['a']]).head? = some true :=
  inferMatches_head_mono (fun s : List Char => s.length) (0 : Nat) 1 2 3
    alignSpec 0 1 (by norm_num) ['a'] [] [['a']] (by decide)

/-- C5 (counterexample): with minus lines `"b b b b b"`, `"a a a a y"` and the
single plus line `"a a a a x"`, at threshold 1/8 the second minus line is
paired (the first is not), while at the larger threshold 1 the first minus
line greedily takes the plus line and the second becomes unpaired: raising
`max_line_distance` converts a paired minus line into an unpaired one. -/
theorem inferMatches_threshold_cex :
    mkRat 1 8 ≤ (1 : ℚ)
    ∧ inferMatches (fun s : List Char => s.length) (0 : Nat) 1 2 3 alignSpec
        (mkRat 1 8) ["b b b b b".toList, "a a a a y".toList]
        ["a a a a x".toList] = [false, true]
    ∧ inferMatches (fun s : List Char => s.length) (0 : Nat) 1 2 3 alignSpec
        1 ["b b b b b".toList, "a a a a y".toList]
        ["a a a a x".toList] = [true, false]
    ∧ (inferMatches (fun s : List Char => s.length) (0 : Nat) 1 2 3 alignSpec
        (mkRat 1 8) ["b b b b b".toList, "a a a a y".toList]
        ["a a a a x".toList]).get? 1 = some true
    ∧ (inferMatches (fun s : List Char => s.length) (0 : Nat) 1 2 3 alignSpec
        1 ["b b b b b".toList, "a a a a y".toList]
        ["a a a a x".toList]).get? 1 = some false :=
  ⟨by decide, by decide, by decide, by decide, by decide⟩

/-- Over two empty token sequences and empty lines every section is empty, so
(as long as the grapheme count of the empty string is 0) no operation of any
script contributes to the denominator. -/
theorem annotateGo_empty_denom {A : Type} (gcount : List Char → Nat)
    (nd d ni i : A) (hg : gcount [] = 0) :
    ∀ (ops : List (Op × Nat)) (s : AnnState A),
      (annotateGo gcount nd d ni i [] [] [] [] ops s).denom = s.denom := by
  intro ops
  induction ops with
  | nil => intro s; rfl
  | cons opn rest ih =>
    intro s
    obtain ⟨op, n⟩ := opn
    rw [annotateGo, ih]
    cases op <;>
      simp [annStep, getSection, sectionLen, distContrib, trim, hg]

/-- C10: for every threshold (including 1 and larger), an empty minus line is
never accepted as homologous to an empty plus line: the distance computed for
two empty lines is NaN (the denominator is 0), the comparison
`distance <= max_line_distance` is false for NaN, so the scan never accepts
an empty plus line for an empty minus line, and in the minimal block
`[""] / [""]` both lines are emitted unpaired as whole-line noop
annotations. -/
theorem infer_edits_empty_never_paired {A : Type} (gcount : List Char → Nat)
    (nd d ni i : A)
    (alignFn : List (List Char) → List (List Char) → List (Op × Nat))
    (t : ℚ) (hg : gcount [] = 0) :
    dleQ (annotate gcount nd d ni i (tokenize []) (tokenize [])
        (alignFn (tokenize []) (tokenize [])) [] []).2.2 t = false
    ∧ (∀ (plus rej : List (List Char)) (am ap : AL A)
        (rest : List (List Char)),
        scanPlus gcount nd d ni i alignFn t [] plus = some (rej, am, ap, rest) →
        plus.get? rej.length ≠ some ([] : List Char))
    ∧ infer_edits gcount nd d ni i alignFn t [[]] [[]]
        = ([[(nd, ([] : List Char))]], [[(ni, ([] : List Char))]]) := by
  have hden : (annotateGo gcount nd d ni i [] [] [] []
      (alignFn [] []) annInit).denom = 0 :=
    annotateGo_empty_denom gcount nd d ni i hg (alignFn [] []) annInit
  have hnan := annotate_denom_nan_core gcount nd d ni i [] []
    (alignFn [] []) [] [] hden
  have htk : tokenize [] = ([] : List (List Char)) := rfl
  have hfalse : dleQ (annotate gcount nd d ni i (tokenize []) (tokenize [])
      (alignFn (tokenize []) (tokenize [])) [] []).2.2 t = false := by
    rw [htk]
    rw [hnan.1]
    rfl
  refine ⟨hfalse, ?_, ?_⟩
  · intro plus rej am ap rest hscan hget
    obtain ⟨pl, hplus, -, -, hdle⟩ :=
      scanPlus_some gcount nd d ni i alignFn t [] plus rej am ap rest hscan
    have hpl : pl = [] := by
      rw [hplus] at hget
      rw [List.get?_append_right (Nat.le_refl _)] at hget
      simp at hget
      exact hget
    rw [hpl] at hdle
    rw [hfalse] at hdle
    exact Bool.noConfusion hdle
  · have hscan : scanPlus gcount nd d ni i alignFn t ([] : List Char)
        [([] : List Char)] = none := by
      simp only [scanPlus, hfalse]
      rfl
    simp only [infer_edits, hscan]
    rfl

/-- C10 witness: the minimal empty-block instance with the modelled engine
and threshold 5. -/
theorem infer_edits_empty_never_paired_witness :
    dleQ (annotate (fun s : List Char => s.length) (0 : Nat) 1 2 3 (tokenize [])
        (tokenize []) (alignSpec (tokenize []) (tokenize [])) [] []).2.2 5 = false
    ∧ infer_edits (fun s : List Char => s.length) (0 : Nat) 1 2 3 alignSpec 5
        [[]] [[]] = ([[(0, ([] : List Char))]], [[(2, ([] : List Char))]]) :=
  ⟨(infer_edits_empty_never_paired (fun s : List Char => s.length) (0 : Nat) 1 2 3
      alignSpec 5 rfl).1,
   (infer_edits_empty_never_paired (fun s : List Char => s.length) (0 : Nat) 1 2 3
      alignSpec 5 rfl).2.2⟩
